import Mathlib

/-!
Verification development for the command dispatch core of the
kirill-scherba command repository (Go). The Go code is shallowly
embedded: Go maps become association lists, pointers to subscriber
actions become heap references (natural numbers indexing a heap
function), byte slices become character lists or strings, and Go
errors become explicit inductive error values or option-typed
messages. Every definition mirrors a specific function of the Go
source; the theorems settle the frozen specification claims.
-/

set_option maxHeartbeats 1000000

namespace CommandRepo

/-! ### Association lists: the embedding of Go maps.

Lookup returns the first binding, erasure removes every binding of a
key, and assignment is erase-then-prepend. On key-nodup lists (the
only lists the operations produce from an empty map) this is
extensionally the semantics of a Go map. -/

def lookupA {K V : Type} [DecidableEq K] : List (K × V) → K → Option V
  | [], _ => none
  | p :: t, k => if p.1 = k then some p.2 else lookupA t k

def eraseA {K V : Type} [DecidableEq K] : List (K × V) → K → List (K × V)
  | [], _ => []
  | p :: t, k => if p.1 = k then eraseA t k else p :: eraseA t k

def setA {K V : Type} [DecidableEq K] (l : List (K × V)) (k : K) (v : V) :
    List (K × V) :=
  (k, v) :: eraseA l k

def keysA {K V : Type} (l : List (K × V)) : List K := l.map Prod.fst

/-! ### Byte-slice splitting: the embedding of bytes.SplitN and strings.Split.

A Go byte slice carrying UTF-8 text is embedded as a List Char.
breakFirst cuts a list at the first separator; splitN mirrors
bytes.SplitN (at most n parts, the last part keeps the remaining
separators unsplit); splitChar mirrors strings.Split (no part limit);
joinChar rejoins parts with the separator, the inverse used to state
that the last part is the unsplit remainder. -/

def breakFirst (sep : Char) : List Char → List Char × Option (List Char)
  | [] => ([], none)
  | c :: t =>
    if c = sep then ([], some t)
    else ((breakFirst sep t).1.cons c, (breakFirst sep t).2)

def splitN (sep : Char) : Nat → List Char → List (List Char)
  | 0, _ => []
  | 1, s => [s]
  | n + 2, s =>
    match breakFirst sep s with
    | (a, none) => [a]
    | (a, some rest) => a :: splitN sep (n + 1) rest

def splitChar (sep : Char) : List Char → List (List Char)
  | [] => [[]]
  | c :: t =>
    if c = sep then [] :: splitChar sep t
    else
      match splitChar sep t with
      | [] => [[c]]
      | h :: r => (c :: h) :: r

def joinChar (sep : Char) : List (List Char) → List Char
  | [] => []
  | [x] => x
  | x :: y :: t => x ++ sep :: joinChar sep (y :: t)

/-! ### Trimming: the embedding of strings.TrimSpace and strings.Trim.

isSpaceChar covers the white-space runes accepted by the Go
function unicode.IsSpace in the Latin-1 range; isBraceChar is the cutset of the brace
characters (code points 123 and 125) used by ParamsSlice. -/

def isSpaceChar (c : Char) : Bool :=
  c = Char.ofNat 32 || c = Char.ofNat 9 || c = Char.ofNat 10 ||
  c = Char.ofNat 11 || c = Char.ofNat 12 || c = Char.ofNat 13 ||
  c = Char.ofNat 133 || c = Char.ofNat 160

def isBraceChar (c : Char) : Bool :=
  c = Char.ofNat 123 || c = Char.ofNat 125

def braceOrSpace (c : Char) : Bool := isSpaceChar c || isBraceChar c

def trimBothList (p : Char → Bool) (l : List Char) : List Char :=
  ((l.dropWhile p).reverse.dropWhile p).reverse

def stripSegment (l : List Char) : List Char :=
  trimBothList isSpaceChar (trimBothList isBraceChar (trimBothList isSpaceChar l))

/-! ### Command registry: embedding of the v2 Commands type.

Source: the current command.go of the repository (the unnamed source
part holding ParseCommand with the trailing-payload return) together
with command_data.go (ParamsSlice). The registry map is an
association list keyed by command name; Go errors become the CmdError
inductive, whose notFound constructor embeds the distinct
command-not-found error built by fmt.Errorf in Exec and ParseCommand.
A handler receives the command entry, the ProcessIn mask (a Nat bit
set) and the request data, and returns a byte slice (List Nat) plus
an optional error, exactly the Go CommandHandler shape. Because a Go
struct cannot be referenced by its own field type in Lean, the entry
passed to the handler is the handler-free part CommandBase. -/

inductive CmdError where
  | notFound (name : String)
  | custom (msg : String)
deriving DecidableEq

structure CommandBase where
  Cmd : String
  ProcessIn : Nat
  Params : String
  Return : String
  Descr : String
  Request : String
  Response : String
deriving DecidableEq

structure CommandData (Δ : Type) where
  base : CommandBase
  Handler : Option (CommandBase → Nat → Δ → List Nat × Option CmdError)

abbrev Commands (Δ : Type) := List (String × CommandData Δ)

/-- Embedding of CommandData.ParamsSlice (command_data.go): empty
pattern gives nil; otherwise split the Params field on the slash and
trim each segment by TrimSpace, then Trim with the brace cutset, then
TrimSpace again. -/
def ParamsSlice (params : String) : List String :=
  if params = "" then []
  else (splitChar '/' params.toList).map (fun seg => String.mk (stripSegment seg))

/-- Embedding of Commands.Exec: look the name up; if found and the
handler is set, invoke it and return its result verbatim; otherwise
return nil bytes and the command-not-found error. -/
def Exec {Δ : Type} (c : Commands Δ) (command : String) (processIn : Nat)
    (data : Δ) : List Nat × Option CmdError :=
  match lookupA c command with
  | some cmd =>
    match cmd.Handler with
    | some f => f cmd.base processIn data
    | none => ([], some (CmdError.notFound command))
  | none => ([], some (CmdError.notFound command))

/-- Control-flow observation of Exec: true exactly on the branch of
the Go code that invokes the handler (entry present and handler
non-nil), false on the branch that builds the not-found error. -/
def execInvokes {Δ : Type} (c : Commands Δ) (command : String) : Bool :=
  match lookupA c command with
  | some cmd => cmd.Handler.isSome
  | none => false

/-- The five return values of ParseCommand, minus the entry pointer:
name, the vars map (none embeds the nil Go map left unbuilt on the
not-found path), the trailing data payload, and the error. -/
structure ParseResult where
  name : String
  vars : Option (List (String × String))
  data : String
  err : Option CmdError
deriving DecidableEq

/-- The variable-binding loop of ParseCommand: empty parameter names
are skipped, index i takes part i when present and the empty string
otherwise. -/
def bindVars (params : List String) (parts : List (List Char)) :
    List (String × String) :=
  (params.enum).foldl
    (fun acc ip =>
      if ip.2 = "" then acc
      else setA acc ip.2 (String.mk (parts.getD ip.1 [])))
    []

/-- The command name ParseCommand extracts: everything before the
first slash of the input line. -/
def parsedName (inData : String) : String :=
  String.mk ((splitN '/' 2 inData.toList).headD [])

/-- The raw parameter tail ParseCommand extracts: everything after
the first slash of the input line, nil when there is no slash. -/
def parseTail (inData : String) : List Char :=
  ((splitN '/' 2 inData.toList).drop 1).headD []

/-- Embedding of Commands.ParseCommand (current variant): split the
input once on the first slash into name and raw parameter tail; look
the name up, failing with the distinct not-found error before any
binding; split the tail into at most (number of pattern parameters)+1
parts, bind the first parts positionally and return the final extra
part, if any, as the opaque data payload. -/
def ParseCommand {Δ : Type} (c : Commands Δ) (inData : String) : ParseResult :=
  match lookupA c (parsedName inData) with
  | none =>
    ⟨parsedName inData, none, "", some (CmdError.notFound (parsedName inData))⟩
  | some cmd =>
    if (parseTail inData).isEmpty then ⟨parsedName inData, some [], "", none⟩
    else
      ⟨parsedName inData,
        some (bindVars (ParamsSlice cmd.base.Params)
          (splitN '/' ((ParamsSlice cmd.base.Params).length + 1) (parseTail inData))),
        if (ParamsSlice cmd.base.Params).length <
            (splitN '/' ((ParamsSlice cmd.base.Params).length + 1)
              (parseTail inData)).length
          then
            String.mk
              ((splitN '/' ((ParamsSlice cmd.base.Params).length + 1)
                (parseTail inData)).getLastD [])
          else ("") ,
        none⟩

/-! ### Legacy registry: the 2023 Command type of the repository root.

Its Add method walks the variadic batch, returns an error value on
the first nil pointer or empty name, and has already inserted every
earlier command, lower-cased, both into the name map and into the
ordered commands array. Go strings.ToLower is embedded per
character. -/

namespace Legacy

inductive AddError where
  | nilCommand
  | emptyName
deriving DecidableEq

structure CommandData where
  name : String
  usage : String
  params : List (String × String)
  cmd : Option (List String → List Nat × Option String)

structure Command where
  m : List (String × CommandData)
  commands : List CommandData

def toLowerStr (s : String) : String := String.mk (s.toList.map Char.toLower)

def findAndReplace : List CommandData → CommandData → List CommandData
  | [], cmd => [cmd]
  | x :: t, cmd => if x.name = cmd.name then cmd :: t else x :: findAndReplace t cmd

/-- Embedding of the legacy Command.Add: stop with an error at the
first nil entry or empty name, otherwise lower-case the name, insert
into the map and the ordered array, and continue with the rest of the
batch. -/
def Add : Command → List (Option CommandData) → Command × Option AddError
  | c, [] => (c, none)
  | c, none :: _ => (c, some AddError.nilCommand)
  | c, some cmd :: rest =>
    if cmd.name = "" then (c, some AddError.emptyName)
    else
      Add ⟨setA c.m (toLowerStr cmd.name) { cmd with name := toLowerStr cmd.name },
           findAndReplace c.commands { cmd with name := toLowerStr cmd.name }⟩ rest

end Legacy

/-! ### Subscription engine: embedding of package subscription.

Go stores one SubscribersAction pointer in both indices; the pointer
becomes a heap reference (Nat), the heap a total function updated
functionally, so reference identity and in-place Data mutation are
modelled faithfully. SubscribersMap is connection keyed, ActionsMap
command keyed, both two-level association lists; a missing outer key
reads as the nil Go map, that is, the empty inner list. -/

structure SubscribersAction (D : Type) where
  Command : String
  Data : D
  Handler : String → D → List Nat × Option String

/-- The envelope marshalled to each subscriber; ID and Address stay
at their zero values in ExecCmd and ExecConCmd, and Err is the error
text or the empty string on a nil error, as in the Go marshalling. -/
structure TeogwData where
  ID : Nat
  Address : String
  Command : String
  Data : List Nat
  Err : String
deriving DecidableEq

structure Subscription (C D : Type) where
  heap : Nat → SubscribersAction D
  nextRef : Nat
  SubscribersMap : List (C × List (String × Nat))
  ActionsMap : List (String × List (C × Nat))

namespace Subscription

def New {C D : Type} [Inhabited D] : Subscription C D :=
  ⟨fun _ => ⟨"", default, fun _ _ => ([], none)⟩, 0, [], []⟩

/-- Embedding of Subscription.SubscribeCmd: allocate one fresh action
holding command, data and handler, and store the same reference under
the connection in SubscribersMap and under the command in ActionsMap
(creating the inner map when nil). -/
def SubscribeCmd {C D : Type} [DecidableEq C] (s : Subscription C D) (con : C)
    (command : String) (data : D)
    (handler : String → D → List Nat × Option String) : Subscription C D :=
  { heap := fun n => if n = s.nextRef then ⟨command, data, handler⟩ else s.heap n
    nextRef := s.nextRef + 1
    SubscribersMap := setA s.SubscribersMap con
      (setA ((lookupA s.SubscribersMap con).getD []) command s.nextRef)
    ActionsMap := setA s.ActionsMap command
      (setA ((lookupA s.ActionsMap command).getD []) con s.nextRef) }

/-- Embedding of Subscription.DelCon: drop the connection key from
SubscribersMap; walk ActionsMap, remove the connection from every
bucket that holds it and delete a bucket that becomes empty. -/
def DelCon {C D : Type} [DecidableEq C] (s : Subscription C D) (con : C) :
    Subscription C D :=
  { s with
    SubscribersMap := eraseA s.SubscribersMap con
    ActionsMap := s.ActionsMap.filterMap (fun kv =>
      if (lookupA kv.2 con).isSome then
        if eraseA kv.2 con = [] then none else some (kv.1, eraseA kv.2 con)
      else some kv) }

/-- Embedding of Subscription.DelConCmd: remove the single pairing
from each index when present there, deleting an inner map that
becomes empty from its outer map. -/
def DelConCmd {C D : Type} [DecidableEq C] (s : Subscription C D) (con : C)
    (command : String) : Subscription C D :=
  { s with
    ActionsMap :=
      if (lookupA ((lookupA s.ActionsMap command).getD []) con).isSome then
        if eraseA ((lookupA s.ActionsMap command).getD []) con = [] then
          eraseA s.ActionsMap command
        else
          setA s.ActionsMap command
            (eraseA ((lookupA s.ActionsMap command).getD []) con)
      else s.ActionsMap
    SubscribersMap :=
      if (lookupA ((lookupA s.SubscribersMap con).getD []) command).isSome then
        if eraseA ((lookupA s.SubscribersMap con).getD []) command = [] then
          eraseA s.SubscribersMap con
        else
          setA s.SubscribersMap con
            (eraseA ((lookupA s.SubscribersMap con).getD []) command)
      else s.SubscribersMap }

/-- The by-connection view: the reference stored for a pairing in
SubscribersMap, none when either level misses. -/
def subLookup {C D : Type} [DecidableEq C] (s : Subscription C D) (con : C)
    (command : String) : Option Nat :=
  lookupA ((lookupA s.SubscribersMap con).getD []) command

/-- The by-command view: the reference stored for a pairing in
ActionsMap, none when either level misses. -/
def actLookup {C D : Type} [DecidableEq C] (s : Subscription C D)
    (command : String) (con : C) : Option Nat :=
  lookupA ((lookupA s.ActionsMap command).getD []) con

/-- Embedding of Subscription.UpdateConCmd: when the pairing exists in
the by-connection index, overwrite the Data field of the shared
action through its reference; otherwise do nothing. -/
def UpdateConCmd {C D : Type} [DecidableEq C] (s : Subscription C D) (con : C)
    (command : String) (d : D) : Subscription C D :=
  match lookupA ((lookupA s.SubscribersMap con).getD []) command with
  | some r =>
    { s with heap := fun n => if n = r then { s.heap r with Data := d } else s.heap n }
  | none => s

def mkEnvelope (command : String) (res : List Nat × Option String) : TeogwData :=
  ⟨0, "", command, res.1, match res.2 with | some e => e | none => ""⟩

def runAction {D : Type} (a : SubscribersAction D) : List Nat × Option String :=
  a.Handler a.Command a.Data

/-- The send effects of Subscription.ExecCmd: for every connection in
the bucket of the command, run the handler of that pairing on its own
command and data and send one envelope; an empty or missing bucket
sends nothing. The Go method returns nothing, so its observable
behaviour is exactly this send list. -/
def ExecCmd {C D : Type} [DecidableEq C] (s : Subscription C D)
    (command : String) : List (C × TeogwData) :=
  ((lookupA s.ActionsMap command).getD []).map
    (fun p => (p.1, mkEnvelope command (runAction (s.heap p.2))))

/-- The send effects of Subscription.ExecConCmd: one envelope to the
selected connection when the pairing exists, nothing otherwise. -/
def ExecConCmd {C D : Type} [DecidableEq C] (s : Subscription C D) (con : C)
    (command : String) : List (C × TeogwData) :=
  match subLookup s con command with
  | some r => [(con, mkEnvelope command (runAction (s.heap r)))]
  | none => []

end Subscription

/-- Lock events of one subscription engine operation, in an order
consistent with every happens-before ordering the Go code admits. -/
inductive Event (C : Type) where
  | rlock
  | invoke (con : C)
  | runlock
deriving DecidableEq

/-- Lock-event trace of Subscription.ExecCmd: RLock happens first;
the deferred RUnlock runs when the method returns, which the
WaitGroup delays until every spawned handler invocation has finished,
so each invocation lies between the two lock events in every
interleaving. -/
def execCmdTrace {C D : Type} [DecidableEq C] (s : Subscription C D)
    (command : String) : List (Event C) :=
  Event.rlock ::
    (((lookupA s.ActionsMap command).getD []).map (fun p => Event.invoke p.1) ++
      [Event.runlock])

/-- Lock-event trace of Subscription.ExecConCmd: RLock, then the
synchronous handler invocation when the pairing exists, then the
deferred RUnlock at return. -/
def execConCmdTrace {C D : Type} [DecidableEq C] (s : Subscription C D)
    (con : C) (command : String) : List (Event C) :=
  Event.rlock ::
    ((match Subscription.subLookup s con command with
      | some _ => [Event.invoke con]
      | none => []) ++ [Event.runlock])

/-- States reachable from New by the public mutating operations of
the subscription engine. -/
inductive Reachable {C D : Type} [DecidableEq C] [Inhabited D] :
    Subscription C D → Prop where
  | init : Reachable Subscription.New
  | subscribe {s : Subscription C D} {con command data handler} :
      Reachable s → Reachable (Subscription.SubscribeCmd s con command data handler)
  | delCon {s : Subscription C D} {con} :
      Reachable s → Reachable (Subscription.DelCon s con)
  | delConCmd {s : Subscription C D} {con command} :
      Reachable s → Reachable (Subscription.DelConCmd s con command)
  | update {s : Subscription C D} {con command d} :
      Reachable s → Reachable (Subscription.UpdateConCmd s con command d)

/-- The structural invariant of the subscription engine: outer keys
of ActionsMap are nodup, every bucket has nodup keys and is
non-empty, the two indices agree pointwise on stored references,
references are below the allocation counter, and distinct pairings
hold distinct references. -/
def Inv {C D : Type} [DecidableEq C] (s : Subscription C D) : Prop :=
  (keysA s.ActionsMap).Nodup
  ∧ (∀ cmd b, lookupA s.ActionsMap cmd = some b → (keysA b).Nodup ∧ b ≠ [])
  ∧ (∀ con cmd, Subscription.subLookup s con cmd = Subscription.actLookup s cmd con)
  ∧ (∀ con cmd r, Subscription.subLookup s con cmd = some r → r < s.nextRef)
  ∧ (∀ con cmd con2 cmd2 r, Subscription.subLookup s con cmd = some r →
      Subscription.subLookup s con2 cmd2 = some r → con = con2 ∧ cmd = cmd2)

/-! ### Concrete states and registries used by witnesses. -/

def hdlEcho : String → Nat → List Nat × Option String := fun _ d => ([d], none)

def hdlBoom : String → Nat × Option String → List Nat × Option String :=
  fun _ _ => ([], some ("boom"))

def hdlBoomNat : String → Nat → List Nat × Option String :=
  fun _ _ => ([], some ("boom"))

def wBase : CommandBase := ⟨"cmd", 1, "{a}/{b}", "", "", "", ""⟩

def wReg : Commands Nat := [(("cmd" : String), ⟨wBase, none⟩)]

def wBaseGet : CommandBase := ⟨"get", 1, "", "", "", "", ""⟩

def wRegExec : Commands Nat :=
  [(("get" : String), ⟨wBaseGet, some (fun _ _ _ => ([7], none))⟩),
   (("nohandler" : String), ⟨wBaseGet, none⟩)]

def stateOne : Subscription Nat Nat :=
  Subscription.SubscribeCmd Subscription.New 1 ("tick") 5 hdlEcho

def stateTwo : Subscription Nat Nat :=
  Subscription.SubscribeCmd
    (Subscription.SubscribeCmd Subscription.New 1 ("tick") 5 hdlEcho)
    2 ("tick") 7 hdlBoomNat

def stateUpd : Subscription Nat Nat :=
  Subscription.SubscribeCmd
    (Subscription.SubscribeCmd Subscription.New 1 ("tick") 5 hdlEcho)
    1 ("tock") 6 hdlEcho

def legacyEmpty : Legacy.Command := ⟨[], []⟩

def legacyGood : Legacy.CommandData := ⟨"Get", "return some text", [], none⟩

def legacyBad : Legacy.CommandData := ⟨"", "broken", [], none⟩

/-! ### Association list lemmas. -/

theorem lookupA_eraseA {K V : Type} [DecidableEq K] (l : List (K × V)) (k j : K) :
    lookupA (eraseA l k) j = if j = k then none else lookupA l j := by
  induction l with
  | nil => simp [lookupA, eraseA]
  | cons p t ih =>
    by_cases hp : p.1 = k <;> by_cases hj : p.1 = j <;>
      by_cases hjk : j = k <;>
      simp_all [lookupA, eraseA]

theorem lookupA_setA {K V : Type} [DecidableEq K] (l : List (K × V)) (k j : K)
    (v : V) :
    lookupA (setA l k v) j = if j = k then some v else lookupA l j := by
  rw [setA, lookupA]
  by_cases h : k = j
  · rw [if_pos h, if_pos h.symm]
  · rw [if_neg h, lookupA_eraseA, if_neg (fun hh => h hh.symm),
      if_neg (fun hh => h hh.symm)]

theorem eraseA_eq_nil_iff {K V : Type} [DecidableEq K] (l : List (K × V)) (k : K) :
    eraseA l k = [] ↔ ∀ p ∈ l, p.1 = k := by
  induction l with
  | nil => simp [eraseA]
  | cons p t ih =>
    by_cases hp : p.1 = k
    · simpa [eraseA, hp] using ih
    · rw [eraseA, if_neg hp]
      exact iff_of_false (List.cons_ne_nil _ _)
        (fun h => hp (h p (List.mem_cons_self p t)))

theorem lookupA_eq_none_of_all_keys {K V : Type} [DecidableEq K]
    (l : List (K × V)) (k j : K) (h : ∀ p ∈ l, p.1 = k) (hj : j ≠ k) :
    lookupA l j = none := by
  induction l with
  | nil => rfl
  | cons p t ih =>
    rw [lookupA, if_neg, ih]
    · intro q hq
      exact h q (List.mem_cons_of_mem p hq)
    · intro hpj
      exact hj (hpj ▸ h p (List.mem_cons_self p t))

theorem lookupA_isSome_of_all_keys {K V : Type} [DecidableEq K]
    (l : List (K × V)) (k : K) (hne : l ≠ []) (h : ∀ p ∈ l, p.1 = k) :
    (lookupA l k).isSome = true := by
  cases l with
  | nil => exact absurd rfl hne
  | cons p t =>
    rw [lookupA, if_pos (h p (List.mem_cons_self p t))]
    rfl

theorem keysA_eraseA_sublist {K V : Type} [DecidableEq K] (l : List (K × V))
    (k : K) : (keysA (eraseA l k)).Sublist (keysA l) := by
  induction l with
  | nil => simp [eraseA, keysA]
  | cons p t ih =>
    by_cases hp : p.1 = k
    · rw [eraseA, if_pos hp]
      exact List.Sublist.cons _ ih
    · rw [eraseA, if_neg hp]
      exact List.Sublist.cons₂ _ ih

theorem not_mem_keysA_eraseA {K V : Type} [DecidableEq K] (l : List (K × V))
    (k : K) : k ∉ keysA (eraseA l k) := by
  induction l with
  | nil => simp [eraseA, keysA]
  | cons p t ih =>
    by_cases hp : p.1 = k
    · rw [eraseA, if_pos hp]; exact ih
    · rw [eraseA, if_neg hp]
      intro hmem
      rcases List.mem_cons.mp hmem with h | h
      · exact hp h.symm
      · exact ih h

theorem nodup_keysA_eraseA {K V : Type} [DecidableEq K] (l : List (K × V))
    (k : K) (h : (keysA l).Nodup) : (keysA (eraseA l k)).Nodup :=
  h.sublist (keysA_eraseA_sublist l k)

theorem nodup_keysA_setA {K V : Type} [DecidableEq K] (l : List (K × V))
    (k : K) (v : V) (h : (keysA l).Nodup) : (keysA (setA l k v)).Nodup := by
  rw [setA]
  refine List.nodup_cons.mpr ⟨not_mem_keysA_eraseA l k, nodup_keysA_eraseA l k h⟩

theorem lookupA_eq_none_of_not_mem_keysA {K V : Type} [DecidableEq K]
    (l : List (K × V)) (k : K) (h : k ∉ keysA l) : lookupA l k = none := by
  induction l with
  | nil => rfl
  | cons p t ih =>
    rw [lookupA, if_neg, ih]
    · intro hmem
      exact h (List.mem_cons_of_mem _ hmem)
    · intro hp
      exact h (hp ▸ List.mem_cons_self p.1 (keysA t))

theorem filter_eq_singleton_of_lookupA {K V : Type} [DecidableEq K]
    (l : List (K × V)) (k : K) (v : V) (hnd : (keysA l).Nodup)
    (h : lookupA l k = some v) :
    l.filter (fun p => decide (p.1 = k)) = [(k, v)] := by
  induction l with
  | nil => simp [lookupA] at h
  | cons p t ih =>
    rcases List.nodup_cons.mp hnd with ⟨hpt, hnt⟩
    by_cases hp : p.1 = k
    · rw [lookupA, if_pos hp] at h
      have hpv : p = (k, v) := by
        cases p
        simp only at hp
        simp only [Option.some.injEq] at h
        simp [hp, h]
      have ht : t.filter (fun p => decide (p.1 = k)) = [] := by
        apply List.filter_eq_nil_iff.mpr
        intro q hq hdec
        apply hpt
        rw [hp]
        have hqk : q.1 = k := of_decide_eq_true hdec
        exact hqk ▸ List.mem_map_of_mem Prod.fst hq
      rw [List.filter_cons, if_pos (by simp [hp]), ht, hpv]
    · rw [lookupA, if_neg hp] at h
      rw [List.filter_cons, if_neg (by simp [hp]), ih hnt h]

/-! ### Splitting lemmas. -/

theorem splitN_length_le (sep : Char) :
    ∀ (k : Nat) (s : List Char), (splitN sep k s).length ≤ k
  | 0, _ => by simp [splitN]
  | 1, _ => by simp [splitN]
  | n + 2, s => by
    rcases hbs : breakFirst sep s with ⟨a, b⟩
    cases b with
    | none => simp [splitN, hbs]
    | some rest =>
      simp only [splitN, hbs, List.length_cons]
      have hr := splitN_length_le sep (n + 1) rest
      omega

theorem splitN_ne_nil (sep : Char) :
    ∀ (k : Nat) (s : List Char), 1 ≤ k → splitN sep k s ≠ []
  | 0, _, h => by omega
  | 1, s, _ => by simp [splitN]
  | n + 2, s, _ => by
    rcases hbs : breakFirst sep s with ⟨a, b⟩
    cases b <;> simp [splitN, hbs]

theorem breakFirst_eq (sep : Char) : ∀ (s : List Char),
    s = (breakFirst sep s).1 ++
      (match (breakFirst sep s).2 with | none => [] | some r => sep :: r)
  | [] => rfl
  | c :: t => by
    by_cases h : c = sep
    · simp [breakFirst, h]
    · simp only [breakFirst, if_neg h, List.cons_append, List.cons.injEq,
        true_and]
      exact breakFirst_eq sep t

theorem joinChar_splitN (sep : Char) :
    ∀ (k : Nat) (s : List Char), 1 ≤ k → joinChar sep (splitN sep k s) = s
  | 0, _, h => by omega
  | 1, s, _ => by simp [splitN, joinChar]
  | n + 2, s, _ => by
    rcases hbs : breakFirst sep s with ⟨a, b⟩
    have hs := breakFirst_eq sep s
    rw [hbs] at hs
    cases b with
    | none =>
      simp only [splitN, hbs, joinChar]
      simpa using hs.symm
    | some rest =>
      have hne := splitN_ne_nil sep (n + 1) rest (by omega)
      simp only [splitN, hbs]
      rcases hsp : splitN sep (n + 1) rest with _ | ⟨x, xs⟩
      · exact absurd hsp hne
      · rw [joinChar, ← hsp, joinChar_splitN sep (n + 1) rest (by omega)]
        exact hs.symm

/-! ### Trimming lemmas. -/

theorem trimBothList_surround (p : Char → Bool) (l : List Char) :
    ∃ pre suf, l = pre ++ trimBothList p l ++ suf
      ∧ (∀ c ∈ pre, p c = true) ∧ (∀ c ∈ suf, p c = true) := by
  refine ⟨l.takeWhile p, ((l.dropWhile p).reverse.takeWhile p).reverse,
    ?_, ?_, ?_⟩
  · have h2 : (l.dropWhile p).reverse =
        ((l.dropWhile p).reverse.takeWhile p) ++
          ((l.dropWhile p).reverse.dropWhile p) :=
      (List.takeWhile_append_dropWhile _ _).symm
    calc l = l.takeWhile p ++ l.dropWhile p :=
          (List.takeWhile_append_dropWhile _ _).symm
      _ = l.takeWhile p ++ ((l.dropWhile p).reverse).reverse := by
          rw [List.reverse_reverse]
      _ = l.takeWhile p ++
            (((l.dropWhile p).reverse.takeWhile p) ++
              ((l.dropWhile p).reverse.dropWhile p)).reverse := by
          rw [← h2]
      _ = l.takeWhile p ++ trimBothList p l ++
            ((l.dropWhile p).reverse.takeWhile p).reverse := by
          rw [List.reverse_append, trimBothList, List.append_assoc]
  · intro c hc
    exact List.mem_takeWhile_imp hc
  · intro c hc
    exact List.mem_takeWhile_imp (List.mem_reverse.mp hc)

theorem stripSegment_surround (l : List Char) :
    ∃ pre suf, l = pre ++ stripSegment l ++ suf
      ∧ (∀ c ∈ pre, braceOrSpace c = true) ∧ (∀ c ∈ suf, braceOrSpace c = true) := by
  obtain ⟨p1, s1, h1, hp1, hs1⟩ := trimBothList_surround isSpaceChar l
  obtain ⟨p2, s2, h2, hp2, hs2⟩ :=
    trimBothList_surround isBraceChar (trimBothList isSpaceChar l)
  obtain ⟨p3, s3, h3, hp3, hs3⟩ :=
    trimBothList_surround isSpaceChar
      (trimBothList isBraceChar (trimBothList isSpaceChar l))
  refine ⟨p1 ++ (p2 ++ p3), (s3 ++ s2) ++ s1, ?_, ?_, ?_⟩
  · have hall : l = p1 ++ (p2 ++ (p3 ++ stripSegment l ++ s3) ++ s2) ++ s1 := by
      simp only [stripSegment]
      rw [← h3, ← h2]
      exact h1
    conv_lhs => rw [hall]
    simp [List.append_assoc]
  · intro c hc
    simp only [List.mem_append] at hc
    rcases hc with h | h | h
    · simp [braceOrSpace, hp1 c h]
    · simp [braceOrSpace, hp2 c h]
    · simp [braceOrSpace, hp3 c h]
  · intro c hc
    simp only [List.mem_append] at hc
    rcases hc with (h | h) | h
    · simp [braceOrSpace, hs3 c h]
    · simp [braceOrSpace, hs2 c h]
    · simp [braceOrSpace, hs1 c h]

/-! ### Subscription engine lemmas: how each operation changes the
two lookup views. -/

theorem lookupA_filterMap_keyed {K V W : Type} [DecidableEq K]
    (f : K × V → Option (K × W)) (hf : ∀ kv q, f kv = some q → q.1 = kv.1) :
    ∀ (l : List (K × V)) (k : K), (keysA l).Nodup →
      lookupA (l.filterMap f) k = (lookupA l k).bind (fun v => (f (k, v)).map Prod.snd)
  | [], k, _ => rfl
  | p :: t, k, hnd => by
    rcases List.nodup_cons.mp hnd with ⟨hpt, hnt⟩
    rcases p with ⟨k1, v1⟩
    by_cases hk : k1 = k
    · subst hk
      rw [List.filterMap_cons]
      cases hf1 : f (k1, v1) with
      | none =>
        rw [lookupA_filterMap_keyed f hf t k1 hnt,
          lookupA_eq_none_of_not_mem_keysA t k1 hpt]
        simp [lookupA, hf1]
      | some q =>
        have hq1 : q.1 = k1 := hf _ _ hf1
        simp [lookupA, hf1, hq1]
    · rw [List.filterMap_cons]
      cases hf1 : f (k1, v1) with
      | none =>
        rw [lookupA_filterMap_keyed f hf t k hnt]
        simp [lookupA, hk]
      | some q =>
        have hq1 : q.1 = k1 := hf _ _ hf1
        simp only [lookupA, hq1, hk, if_false]
        exact lookupA_filterMap_keyed f hf t k hnt

theorem keysA_filterMap_sublist {K V W : Type} (f : K × V → Option (K × W))
    (hf : ∀ kv q, f kv = some q → q.1 = kv.1) :
    ∀ (l : List (K × V)), (keysA (l.filterMap f)).Sublist (keysA l)
  | [] => by simp [keysA]
  | p :: t => by
    rw [List.filterMap_cons]
    cases hf1 : f p with
    | none => exact List.Sublist.cons _ (keysA_filterMap_sublist f hf t)
    | some q =>
      have hq1 : q.1 = p.1 := hf _ _ hf1
      show (q.1 :: keysA (t.filterMap f)).Sublist (p.1 :: keysA t)
      rw [hq1]
      exact List.Sublist.cons₂ _ (keysA_filterMap_sublist f hf t)

namespace Subscription

/-- The transformation DelCon applies to ActionsMap, named so the
lemmas below can speak about it. -/
def delConBuckets {C : Type} [DecidableEq C]
    (l : List (String × List (C × Nat))) (con : C) :
    List (String × List (C × Nat)) :=
  l.filterMap (fun kv =>
    if (lookupA kv.2 con).isSome then
      if eraseA kv.2 con = [] then none else some (kv.1, eraseA kv.2 con)
    else some kv)

theorem delConBuckets_keyed {C : Type} [DecidableEq C] (con : C) :
    ∀ kv q, (fun kv : String × List (C × Nat) =>
        if (lookupA kv.2 con).isSome then
          if eraseA kv.2 con = [] then none else some (kv.1, eraseA kv.2 con)
        else some kv) kv = some q → q.1 = kv.1 := by
  intro kv q h
  dsimp only at h
  by_cases h1 : (lookupA kv.2 con).isSome
  · rw [if_pos h1] at h
    by_cases h2 : eraseA kv.2 con = []
    · rw [if_pos h2] at h
      cases h
    · rw [if_neg h2] at h
      cases h
      rfl
  · rw [if_neg h1] at h
    cases h
    rfl

theorem lookupA_delConBuckets {C : Type} [DecidableEq C]
    (l : List (String × List (C × Nat))) (con : C) (k : String)
    (hnd : (keysA l).Nodup) :
    lookupA (delConBuckets l con) k
      = (lookupA l k).bind (fun v =>
          if (lookupA v con).isSome then
            if eraseA v con = [] then none else some (eraseA v con)
          else some v) := by
  rw [delConBuckets,
    lookupA_filterMap_keyed _ (delConBuckets_keyed con) l k hnd]
  cases lookupA l k with
  | none => rfl
  | some v =>
    simp only [Option.some_bind]
    by_cases h1 : (lookupA v con).isSome
    · rw [if_pos h1, if_pos h1]
      by_cases h2 : eraseA v con = []
      · rw [if_pos h2, if_pos h2]
        rfl
      · rw [if_neg h2, if_neg h2]
        rfl
    · rw [if_neg h1, if_neg h1]
      rfl

theorem DelCon_ActionsMap {C D : Type} [DecidableEq C] (s : Subscription C D)
    (con : C) : (DelCon s con).ActionsMap = delConBuckets s.ActionsMap con := rfl

theorem subLookup_SubscribeCmd {C D : Type} [DecidableEq C]
    (s : Subscription C D) (con : C) (cmd : String) (data : D)
    (handler : String → D → List Nat × Option String) (c : C) (k : String) :
    subLookup (SubscribeCmd s con cmd data handler) c k =
      if c = con ∧ k = cmd then some s.nextRef else subLookup s c k := by
  unfold subLookup SubscribeCmd
  simp only
  rw [lookupA_setA]
  by_cases hc : c = con
  · rw [if_pos hc, Option.getD_some, lookupA_setA]
    by_cases hk : k = cmd
    · rw [if_pos hk, if_pos ⟨hc, hk⟩]
    · rw [if_neg hk, if_neg (fun hh => hk hh.2), hc]
  · rw [if_neg hc, if_neg (fun hh => hc hh.1)]

theorem actLookup_SubscribeCmd {C D : Type} [DecidableEq C]
    (s : Subscription C D) (con : C) (cmd : String) (data : D)
    (handler : String → D → List Nat × Option String) (k : String) (c : C) :
    actLookup (SubscribeCmd s con cmd data handler) k c =
      if k = cmd ∧ c = con then some s.nextRef else actLookup s k c := by
  unfold actLookup SubscribeCmd
  simp only
  rw [lookupA_setA]
  by_cases hk : k = cmd
  · rw [if_pos hk, Option.getD_some, lookupA_setA]
    by_cases hc : c = con
    · rw [if_pos hc, if_pos ⟨hk, hc⟩]
    · rw [if_neg hc, if_neg (fun hh => hc hh.2), hk]
  · rw [if_neg hk, if_neg (fun hh => hk hh.1)]

theorem subLookup_DelCon {C D : Type} [DecidableEq C] (s : Subscription C D)
    (con : C) (c : C) (k : String) :
    subLookup (DelCon s con) c k = if c = con then none else subLookup s c k := by
  unfold subLookup DelCon
  simp only
  rw [lookupA_eraseA]
  by_cases hc : c = con
  · rw [if_pos hc, if_pos hc]
    rfl
  · rw [if_neg hc, if_neg hc]

theorem actLookup_DelCon {C D : Type} [DecidableEq C] (s : Subscription C D)
    (con : C) (k : String) (c : C) (hnd : (keysA s.ActionsMap).Nodup) :
    actLookup (DelCon s con) k c = if c = con then none else actLookup s k c := by
  unfold actLookup
  rw [DelCon_ActionsMap, lookupA_delConBuckets s.ActionsMap con k hnd]
  cases hAM : lookupA s.ActionsMap k with
  | none =>
    simp only [Option.none_bind]
    by_cases hc : c = con <;> simp [lookupA, hc]
  | some v =>
    simp only [Option.some_bind]
    by_cases h1 : (lookupA v con).isSome
    · rw [if_pos h1]
      by_cases h2 : eraseA v con = []
      · rw [if_pos h2]
        have hall := (eraseA_eq_nil_iff v con).mp h2
        by_cases hc : c = con
        · simp [lookupA, hc]
        · rw [if_neg hc, Option.getD_none]
          exact (lookupA_eq_none_of_all_keys v con c hall hc).symm
      · rw [if_neg h2, Option.getD_some, lookupA_eraseA]
        rfl
    · rw [if_neg h1, Option.getD_some]
      by_cases hc : c = con
      · rw [if_pos hc, hc]
        exact Option.not_isSome_iff_eq_none.mp h1
      · rw [if_neg hc]

theorem subLookup_DelConCmd {C D : Type} [DecidableEq C] (s : Subscription C D)
    (con : C) (cmd : String) (c : C) (k : String) :
    subLookup (DelConCmd s con cmd) c k =
      if c = con ∧ k = cmd then none else subLookup s c k := by
  unfold subLookup DelConCmd
  simp only
  by_cases h1 : (lookupA ((lookupA s.SubscribersMap con).getD []) cmd).isSome
  · rw [if_pos h1]
    by_cases h2 : eraseA ((lookupA s.SubscribersMap con).getD []) cmd = []
    · rw [if_pos h2, lookupA_eraseA]
      by_cases hc : c = con
      · rw [if_pos hc]
        by_cases hk : k = cmd
        · rw [if_pos ⟨hc, hk⟩]
          rfl
        · rw [if_neg (fun hh => hk hh.2), hc]
          exact (lookupA_eq_none_of_all_keys _ cmd k
            ((eraseA_eq_nil_iff _ cmd).mp h2) hk).symm
      · rw [if_neg hc, if_neg (fun hh => hc hh.1)]
    · rw [if_neg h2, lookupA_setA]
      by_cases hc : c = con
      · rw [if_pos hc, Option.getD_some, lookupA_eraseA]
        by_cases hk : k = cmd
        · rw [if_pos hk, if_pos ⟨hc, hk⟩]
        · rw [if_neg hk, if_neg (fun hh => hk hh.2), hc]
      · rw [if_neg hc, if_neg (fun hh => hc hh.1)]
  · rw [if_neg h1]
    by_cases hc : c = con
    · by_cases hk : k = cmd
      · rw [if_pos ⟨hc, hk⟩, hc, hk]
        exact Option.not_isSome_iff_eq_none.mp h1
      · rw [if_neg (fun hh => hk hh.2)]
    · rw [if_neg (fun hh => hc hh.1)]

theorem actLookup_DelConCmd {C D : Type} [DecidableEq C] (s : Subscription C D)
    (con : C) (cmd : String) (k : String) (c : C) :
    actLookup (DelConCmd s con cmd) k c =
      if k = cmd ∧ c = con then none else actLookup s k c := by
  unfold actLookup DelConCmd
  simp only
  by_cases h1 : (lookupA ((lookupA s.ActionsMap cmd).getD []) con).isSome
  · rw [if_pos h1]
    by_cases h2 : eraseA ((lookupA s.ActionsMap cmd).getD []) con = []
    · rw [if_pos h2, lookupA_eraseA]
      by_cases hk : k = cmd
      · rw [if_pos hk]
        by_cases hc : c = con
        · rw [if_pos ⟨hk, hc⟩]
          rfl
        · rw [if_neg (fun hh => hc hh.2), hk]
          exact (lookupA_eq_none_of_all_keys _ con c
            ((eraseA_eq_nil_iff _ con).mp h2) hc).symm
      · rw [if_neg hk, if_neg (fun hh => hk hh.1)]
    · rw [if_neg h2, lookupA_setA]
      by_cases hk : k = cmd
      · rw [if_pos hk, Option.getD_some, lookupA_eraseA]
        by_cases hc : c = con
        · rw [if_pos hc, if_pos ⟨hk, hc⟩]
        · rw [if_neg hc, if_neg (fun hh => hc hh.2), hk]
      · rw [if_neg hk, if_neg (fun hh => hk hh.1)]
  · rw [if_neg h1]
    by_cases hk : k = cmd
    · by_cases hc : c = con
      · rw [if_pos ⟨hk, hc⟩, hk, hc]
        exact Option.not_isSome_iff_eq_none.mp h1
      · rw [if_neg (fun hh => hc hh.2)]
    · rw [if_neg (fun hh => hk hh.1)]

theorem UpdateConCmd_maps {C D : Type} [DecidableEq C] (s : Subscription C D)
    (con : C) (cmd : String) (d : D) :
    (UpdateConCmd s con cmd d).SubscribersMap = s.SubscribersMap
    ∧ (UpdateConCmd s con cmd d).ActionsMap = s.ActionsMap
    ∧ (UpdateConCmd s con cmd d).nextRef = s.nextRef := by
  unfold UpdateConCmd
  cases lookupA ((lookupA s.SubscribersMap con).getD []) cmd <;>
    exact ⟨rfl, rfl, rfl⟩

theorem subLookup_UpdateConCmd {C D : Type} [DecidableEq C]
    (s : Subscription C D) (con : C) (cmd : String) (d : D) (c : C) (k : String) :
    subLookup (UpdateConCmd s con cmd d) c k = subLookup s c k := by
  unfold subLookup
  rw [(UpdateConCmd_maps s con cmd d).1]

end Subscription

/-- Transport of the invariant along equality of the three
map-related fields; the heap does not enter Inv. -/
theorem Inv_of_eq {C D : Type} [DecidableEq C] {s t : Subscription C D}
    (h1 : t.SubscribersMap = s.SubscribersMap) (h2 : t.ActionsMap = s.ActionsMap)
    (h3 : t.nextRef = s.nextRef) (hi : Inv s) : Inv t := by
  unfold Inv Subscription.subLookup Subscription.actLookup at hi ⊢
  rw [h1, h2, h3]
  exact hi

/-- Every reachable subscription state satisfies the structural
invariant. -/
theorem reachable_inv {C D : Type} [DecidableEq C] [Inhabited D]
    {s : Subscription C D} (h : Reachable s) : Inv s := by
  induction h with
  | init =>
    refine ⟨List.nodup_nil, ?_, ?_, ?_, ?_⟩
    · intro cmd b hb
      simp [lookupA, Subscription.New] at hb
    · intro con cmd
      rfl
    · intro con cmd r hr
      simp [Subscription.subLookup, Subscription.New, lookupA] at hr
    · intro con cmd con2 cmd2 r h1 h2
      simp [Subscription.subLookup, Subscription.New, lookupA] at h1
  | subscribe hr ih =>
    rename_i s0 con cmd data handler
    obtain ⟨ih1, ih2, ih3, ih4, ih5⟩ := ih
    have hAMdef : (Subscription.SubscribeCmd s0 con cmd data handler).ActionsMap
        = setA s0.ActionsMap cmd
            (setA ((lookupA s0.ActionsMap cmd).getD []) con s0.nextRef) := rfl
    refine ⟨?_, ?_, ?_, ?_, ?_⟩
    · rw [hAMdef]
      exact nodup_keysA_setA _ _ _ ih1
    · intro k b hb
      rw [hAMdef, lookupA_setA] at hb
      by_cases hk : k = cmd
      · rw [if_pos hk] at hb
        cases hb
        constructor
        · apply nodup_keysA_setA
          cases hob : lookupA s0.ActionsMap cmd with
          | none => simp [keysA]
          | some ob => simpa using (ih2 cmd ob hob).1
        · simp [setA]
      · rw [if_neg hk] at hb
        exact ih2 k b hb
    · intro c k
      rw [Subscription.subLookup_SubscribeCmd, Subscription.actLookup_SubscribeCmd]
      by_cases hck : c = con ∧ k = cmd
      · rw [if_pos hck, if_pos ⟨hck.2, hck.1⟩]
      · rw [if_neg hck, if_neg (fun hh => hck ⟨hh.2, hh.1⟩), ih3]

    · intro c k r hr
      rw [Subscription.subLookup_SubscribeCmd] at hr
      have hnext : (Subscription.SubscribeCmd s0 con cmd data handler).nextRef
          = s0.nextRef + 1 := rfl
      rw [hnext]
      by_cases hck : c = con ∧ k = cmd
      · rw [if_pos hck] at hr
        cases hr
        omega
      · rw [if_neg hck] at hr
        have := ih4 c k r hr
        omega
    · intro c k c2 k2 r h1 h2
      rw [Subscription.subLookup_SubscribeCmd] at h1 h2
      by_cases b1 : c = con ∧ k = cmd <;> by_cases b2 : c2 = con ∧ k2 = cmd
      · exact ⟨b1.1.trans b2.1.symm, b1.2.trans b2.2.symm⟩
      · rw [if_pos b1] at h1
        rw [if_neg b2] at h2
        cases h1
        have hb := ih4 c2 k2 _ h2
        omega
      · rw [if_neg b1] at h1
        rw [if_pos b2] at h2
        cases h2
        have hb := ih4 c k _ h1
        omega
      · rw [if_neg b1] at h1
        rw [if_neg b2] at h2
        exact ih5 c k c2 k2 r h1 h2
  | delCon hr ih =>
    rename_i s0 con
    obtain ⟨ih1, ih2, ih3, ih4, ih5⟩ := ih
    refine ⟨?_, ?_, ?_, ?_, ?_⟩
    · rw [Subscription.DelCon_ActionsMap, Subscription.delConBuckets]
      exact ih1.sublist
        (keysA_filterMap_sublist _ (Subscription.delConBuckets_keyed con) _)
    · intro k b hb
      rw [Subscription.DelCon_ActionsMap,
        Subscription.lookupA_delConBuckets _ con k ih1] at hb
      cases hAM : lookupA s0.ActionsMap k with
      | none =>
        rw [hAM] at hb
        cases hb
      | some v =>
        rw [hAM, Option.some_bind] at hb
        obtain ⟨hvn, hvne⟩ := ih2 k v hAM
        by_cases h1 : (lookupA v con).isSome
        · rw [if_pos h1] at hb
          by_cases h2 : eraseA v con = []
          · rw [if_pos h2] at hb
            cases hb
          · rw [if_neg h2] at hb
            cases hb
            exact ⟨nodup_keysA_eraseA v con hvn, h2⟩
        · rw [if_neg h1] at hb
          cases hb
          exact ⟨hvn, hvne⟩
    · intro c k
      rw [Subscription.subLookup_DelCon, Subscription.actLookup_DelCon _ _ _ _ ih1]
      by_cases hc : c = con
      · rw [if_pos hc, if_pos hc]
      · rw [if_neg hc, if_neg hc, ih3]
    · intro c k r hr
      rw [Subscription.subLookup_DelCon] at hr
      have hnext : (Subscription.DelCon s0 con).nextRef = s0.nextRef := rfl
      rw [hnext]
      by_cases hc : c = con
      · rw [if_pos hc] at hr
        cases hr
      · rw [if_neg hc] at hr
        exact ih4 c k r hr
    · intro c k c2 k2 r h1 h2
      rw [Subscription.subLookup_DelCon] at h1 h2
      by_cases hc : c = con
      · rw [if_pos hc] at h1
        cases h1
      · rw [if_neg hc] at h1
        by_cases hc2 : c2 = con
        · rw [if_pos hc2] at h2
          cases h2
        · rw [if_neg hc2] at h2
          exact ih5 c k c2 k2 r h1 h2
  | delConCmd hr ih =>
    rename_i s0 con cmd
    obtain ⟨ih1, ih2, ih3, ih4, ih5⟩ := ih
    have hAMdef : (Subscription.DelConCmd s0 con cmd).ActionsMap
        = (if (lookupA ((lookupA s0.ActionsMap cmd).getD []) con).isSome then
            if eraseA ((lookupA s0.ActionsMap cmd).getD []) con = [] then
              eraseA s0.ActionsMap cmd
            else
              setA s0.ActionsMap cmd
                (eraseA ((lookupA s0.ActionsMap cmd).getD []) con)
          else s0.ActionsMap) := rfl
    refine ⟨?_, ?_, ?_, ?_, ?_⟩
    · rw [hAMdef]
      by_cases h1 : (lookupA ((lookupA s0.ActionsMap cmd).getD []) con).isSome
      · rw [if_pos h1]
        by_cases h2 : eraseA ((lookupA s0.ActionsMap cmd).getD []) con = []
        · rw [if_pos h2]
          exact nodup_keysA_eraseA _ _ ih1
        · rw [if_neg h2]
          exact nodup_keysA_setA _ _ _ ih1
      · rw [if_neg h1]
        exact ih1
    · intro k b hb
      rw [hAMdef] at hb
      by_cases h1 : (lookupA ((lookupA s0.ActionsMap cmd).getD []) con).isSome
      · rw [if_pos h1] at hb
        by_cases h2 : eraseA ((lookupA s0.ActionsMap cmd).getD []) con = []
        · rw [if_pos h2, lookupA_eraseA] at hb
          by_cases hk : k = cmd
          · rw [if_pos hk] at hb
            cases hb
          · rw [if_neg hk] at hb
            exact ih2 k b hb
        · rw [if_neg h2, lookupA_setA] at hb
          by_cases hk : k = cmd
          · rw [if_pos hk] at hb
            cases hob : lookupA s0.ActionsMap cmd with
            | none =>
              exfalso
              rw [hob] at h1
              simp [lookupA] at h1
            | some ob =>
              rw [hob] at hb h2
              rw [Option.getD_some] at hb h2
              cases hb
              exact ⟨nodup_keysA_eraseA ob con (ih2 cmd ob hob).1, h2⟩
          · rw [if_neg hk] at hb
            exact ih2 k b hb
      · rw [if_neg h1] at hb
        exact ih2 k b hb
    · intro c k
      rw [Subscription.subLookup_DelConCmd, Subscription.actLookup_DelConCmd]
      by_cases hck : c = con ∧ k = cmd
      · rw [if_pos hck, if_pos ⟨hck.2, hck.1⟩]
      · rw [if_neg hck, if_neg (fun hh => hck ⟨hh.2, hh.1⟩), ih3]
    · intro c k r hr
      rw [Subscription.subLookup_DelConCmd] at hr
      have hnext : (Subscription.DelConCmd s0 con cmd).nextRef = s0.nextRef := rfl
      rw [hnext]
      by_cases hck : c = con ∧ k = cmd
      · rw [if_pos hck] at hr
        cases hr
      · rw [if_neg hck] at hr
        exact ih4 c k r hr
    · intro c k c2 k2 r h1 h2
      rw [Subscription.subLookup_DelConCmd] at h1 h2
      by_cases b1 : c = con ∧ k = cmd
      · rw [if_pos b1] at h1
        cases h1
      · rw [if_neg b1] at h1
        by_cases b2 : c2 = con ∧ k2 = cmd
        · rw [if_pos b2] at h2
          cases h2
        · rw [if_neg b2] at h2
          exact ih5 c k c2 k2 r h1 h2
  | update hr ih =>
    rename_i s0 con cmd d
    exact Inv_of_eq (Subscription.UpdateConCmd_maps s0 con cmd d).1
      (Subscription.UpdateConCmd_maps s0 con cmd d).2.1
      (Subscription.UpdateConCmd_maps s0 con cmd d).2.2 ih

/-! ### Legacy Add helper. -/

theorem Add_keeps_key :
    ∀ (l : List (Option Legacy.CommandData)) (c : Legacy.Command) (key : String),
      (∃ e, lookupA c.m key = some e ∧ e.name = key) →
      ∃ e, lookupA (Legacy.Add c l).1.m key = some e ∧ e.name = key
  | [], _, _, h => h
  | none :: _, _, _, h => h
  | some cmd :: rest, c, key, h => by
    by_cases hn : cmd.name = ""
    · simpa [Legacy.Add, hn] using h
    · rw [show Legacy.Add c (some cmd :: rest) = Legacy.Add
          ⟨setA c.m (Legacy.toLowerStr cmd.name)
              { cmd with name := Legacy.toLowerStr cmd.name },
            Legacy.findAndReplace c.commands
              { cmd with name := Legacy.toLowerStr cmd.name }⟩ rest from by
        rw [Legacy.Add, if_neg hn]]
      apply Add_keeps_key rest
      obtain ⟨e, he, hname⟩ := h
      by_cases hk : Legacy.toLowerStr cmd.name = key
      · refine ⟨{ cmd with name := Legacy.toLowerStr cmd.name }, ?_, hk⟩
        show lookupA (setA c.m (Legacy.toLowerStr cmd.name) _) key = _
        rw [lookupA_setA, if_pos hk.symm]
      · refine ⟨e, ?_, hname⟩
        show lookupA (setA c.m (Legacy.toLowerStr cmd.name) _) key = _
        rw [lookupA_setA, if_neg (fun hh => hk hh.symm)]
        exact he

/-! ### Claim theorems and witnesses. -/

/-- C1: for a command registered under the name cmd with the pattern
of two brace placeholders a and b, parsing the line with values x, y
and the extra tail yields the name cmd, the vars map binding a to x
and b to y and nothing else, no error, and the opaque payload keeping
its slash unsplit; moreover splitN never produces more than its part
bound, and rejoining the parts restores the input, so everything past
the placeholders stays in the one trailing payload part. -/
theorem parseCommand_scenario {Δ : Type} (c : Commands Δ)
    (entry : CommandData Δ) (hreg : lookupA c ("cmd") = some entry)
    (hpat : entry.base.Params = "{a}/{b}") :
    (ParseCommand c ("cmd/x/y/extra/more")).name = "cmd"
    ∧ (∃ m, (ParseCommand c ("cmd/x/y/extra/more")).vars = some m
        ∧ lookupA m ("a") = some ("x") ∧ lookupA m ("b") = some ("y")
        ∧ m.length = 2)
    ∧ (ParseCommand c ("cmd/x/y/extra/more")).data = "extra/more"
    ∧ (ParseCommand c ("cmd/x/y/extra/more")).err = none
    ∧ (∀ (k : Nat) (s : List Char), (splitN '/' k s).length ≤ k)
    ∧ (∀ (k : Nat) (s : List Char), 1 ≤ k →
        joinChar '/' (splitN '/' k s) = s) := by
  have hres : ParseCommand c ("cmd/x/y/extra/more") =
      ⟨"cmd", some [(("b" : String), ("y" : String)),
        (("a" : String), ("x" : String))], "extra/more", none⟩ := by
    have hreg2 : lookupA c (parsedName ("cmd/x/y/extra/more")) = some entry := hreg
    unfold ParseCommand
    rw [hreg2]
    dsimp only
    rw [hpat]
    decide
  rw [hres]
  refine ⟨rfl, ⟨_, rfl, by decide, by decide, by decide⟩, rfl, rfl,
    splitN_length_le '/', joinChar_splitN '/'⟩

/-- Witness for the C1 theorem at a concrete registry. -/
theorem parseCommand_scenario_witness :
    (ParseCommand wReg ("cmd/x/y/extra/more")).name = "cmd"
    ∧ (ParseCommand wReg ("cmd/x/y/extra/more")).data = "extra/more" :=
  ⟨(parseCommand_scenario wReg ⟨wBase, none⟩ rfl rfl).1,
   (parseCommand_scenario wReg ⟨wBase, none⟩ rfl rfl).2.2.1⟩

/-- C5: when the parsed command name is not registered, ParseCommand
returns the distinct not-found error carrying that name, with the
vars map still nil (no binding was attempted, no pattern consulted)
and no payload. -/
theorem parseCommand_notFound {Δ : Type} (c : Commands Δ) (inData : String)
    (h : lookupA c (parsedName inData) = none) :
    ParseCommand c inData =
      ⟨parsedName inData, none, "",
        some (CmdError.notFound (parsedName inData))⟩ := by
  unfold ParseCommand
  rw [h]

/-- Witness for the C5 theorem on the empty registry. -/
theorem parseCommand_notFound_witness :
    ParseCommand ([] : Commands Nat) ("missing/1/2") =
      ⟨"missing", none, "", some (CmdError.notFound ("missing"))⟩ :=
  parseCommand_notFound ([] : Commands Nat) ("missing/1/2") rfl

/-- C6: Exec returns the not-found error while invoking no handler
exactly when the name is absent from the registry or the entry has a
nil handler; when an entry with a handler exists, Exec invokes it on
the entry, the mask and the request data and returns its result
verbatim. -/
theorem exec_spec {Δ : Type} (c : Commands Δ) (command : String)
    (processIn : Nat) (data : Δ) :
    ((execInvokes c command = false
        ∧ Exec c command processIn data = ([], some (CmdError.notFound command)))
      ↔ (lookupA c command = none
          ∨ ∃ cd, lookupA c command = some cd ∧ cd.Handler = none))
    ∧ (∀ cd f, lookupA c command = some cd → cd.Handler = some f →
        Exec c command processIn data = f cd.base processIn data
          ∧ execInvokes c command = true) := by
  constructor
  · constructor
    · intro hfe
      have hinv := hfe.1
      cases hc : lookupA c command with
      | none => exact Or.inl rfl
      | some cd =>
        right
        refine ⟨cd, rfl, ?_⟩
        simp only [execInvokes, hc] at hinv
        exact Option.not_isSome_iff_eq_none.mp (by simp [hinv])
    · intro h
      rcases h with h | ⟨cd, hcd, hh⟩
      · constructor <;> simp [execInvokes, Exec, h]
      · constructor <;> simp [execInvokes, Exec, hcd, hh]
  · intro cd f hcd hf
    constructor
    · simp [Exec, hcd, hf]
    · simp [execInvokes, hcd, hf]

/-- Witness for the C6 theorem: an unregistered name fails with
not-found and no invocation, a registered name with a handler
returns the handler result. -/
theorem exec_spec_witness :
    Exec wRegExec ("missing") 1 0 = ([], some (CmdError.notFound ("missing")))
    ∧ execInvokes wRegExec ("missing") = false
    ∧ Exec wRegExec ("get") 1 0 = ([7], none)
    ∧ Exec wRegExec ("nohandler") 1 0 =
        ([], some (CmdError.notFound ("nohandler"))) := by
  refine ⟨?_, ?_, ?_, ?_⟩
  · exact ((exec_spec wRegExec ("missing") 1 0).1.mpr (Or.inl rfl)).2
  · exact ((exec_spec wRegExec ("missing") 1 0).1.mpr (Or.inl rfl)).1
  · exact ((exec_spec wRegExec ("get") 1 0).2 _ _ rfl rfl).1.trans rfl
  · exact ((exec_spec wRegExec ("nohandler") 1 0).1.mpr
      (Or.inr ⟨_, rfl, rfl⟩)).2

/-- C9: ParamsSlice of the empty pattern is the empty list; on any
other pattern it splits on the slash preserving segment count and
order, and the entry at index i arises from the segment at index i by
removing a prefix and a suffix made only of brace and white-space
characters. -/
theorem paramsSlice_spec (pattern : String) :
    (pattern = "" → ParamsSlice pattern = [])
    ∧ (pattern ≠ "" →
        (ParamsSlice pattern).length = (splitChar '/' pattern.toList).length
        ∧ ∀ i, i < (splitChar '/' pattern.toList).length →
            ∃ pre suf,
              (splitChar '/' pattern.toList).getD i []
                = pre ++ ((ParamsSlice pattern).getD i ("")).toList ++ suf
              ∧ (∀ ch ∈ pre, braceOrSpace ch = true)
              ∧ (∀ ch ∈ suf, braceOrSpace ch = true)) := by
  constructor
  · intro h
    simp [ParamsSlice, h]
  · intro h
    have hps : ParamsSlice pattern
        = (splitChar '/' pattern.toList).map
            (fun seg => String.mk (stripSegment seg)) := by
      simp [ParamsSlice, h]
    constructor
    · rw [hps, List.length_map]
    · intro i hi
      have hgd : (ParamsSlice pattern).getD i ("")
          = String.mk (stripSegment ((splitChar '/' pattern.toList).getD i [])) := by
        rw [hps]
        rcases hx : (splitChar '/' pattern.toList)[i]? with _ | x
        · exfalso
          rw [List.getElem?_eq_none_iff] at hx
          omega
        · rw [List.getD_eq_getElem?_getD, List.getElem?_map, hx,
            List.getD_eq_getElem?_getD, hx]
          rfl
      obtain ⟨pre, suf, he, hpre, hsuf⟩ :=
        stripSegment_surround ((splitChar '/' pattern.toList).getD i [])
      refine ⟨pre, suf, ?_, hpre, hsuf⟩
      rw [hgd]
      exact he

/-- Witness for the C9 theorem on the empty pattern and a two
placeholder pattern. -/
theorem paramsSlice_spec_witness :
    ParamsSlice ("") = [] ∧ (ParamsSlice ("{a}/{b}")).length = 2 := by
  refine ⟨(paramsSlice_spec ("")).1 rfl, ?_⟩
  have h := ((paramsSlice_spec ("{a}/{b}")).2 (by decide)).1
  rw [h]
  decide

/-- C10: the legacy batch Add is not atomic on error: when the batch
holds well-named commands followed by a nil pointer or an empty-named
command, Add returns the matching error, yet every earlier command of
the batch is already inserted under its lower-cased name and stays
registered. -/
theorem legacy_add_not_atomic (c : Legacy.Command)
    (pre : List Legacy.CommandData) (bad : Option Legacy.CommandData)
    (rest : List (Option Legacy.CommandData))
    (hpre : ∀ d ∈ pre, d.name ≠ "")
    (hbad : bad = none ∨ ∃ d, bad = some d ∧ d.name = "") :
    (Legacy.Add c (pre.map some ++ bad :: rest)).2
        = some (if bad.isNone then Legacy.AddError.nilCommand
            else Legacy.AddError.emptyName)
    ∧ ∀ d ∈ pre, ∃ e,
        lookupA (Legacy.Add c (pre.map some ++ bad :: rest)).1.m
            (Legacy.toLowerStr d.name) = some e
        ∧ e.name = Legacy.toLowerStr d.name := by
  induction pre generalizing c with
  | nil =>
    simp only [List.map_nil, List.nil_append]
    constructor
    · rcases hbad with h | ⟨d, hd, hname⟩
      · subst h
        simp [Legacy.Add]
      · subst hd
        simp [Legacy.Add, hname]
    · intro d hd
      simp at hd
  | cons d0 pre ih =>
    have hd0 : d0.name ≠ "" := hpre d0 (List.mem_cons_self d0 pre)
    simp only [List.map_cons, List.cons_append]
    rw [show Legacy.Add c (some d0 :: (pre.map some ++ bad :: rest)) =
        Legacy.Add ⟨setA c.m (Legacy.toLowerStr d0.name)
            { d0 with name := Legacy.toLowerStr d0.name },
          Legacy.findAndReplace c.commands
            { d0 with name := Legacy.toLowerStr d0.name }⟩
          (pre.map some ++ bad :: rest) from by
      rw [Legacy.Add, if_neg hd0]]
    obtain ⟨ihe, ihall⟩ := ih _ (fun d hd => hpre d (List.mem_cons_of_mem d0 hd))
    refine ⟨ihe, ?_⟩
    intro d hd
    rcases List.mem_cons.mp hd with rfl | hmem
    · apply Add_keeps_key
      refine ⟨{ d with name := Legacy.toLowerStr d.name }, ?_, rfl⟩
      show lookupA (setA c.m (Legacy.toLowerStr d.name) _)
        (Legacy.toLowerStr d.name) = _
      rw [lookupA_setA, if_pos rfl]
    · exact ihall d hmem

/-- Witness for the C10 theorem: a batch of one valid command and one
empty-named command errors yet leaves the first registered as get. -/
theorem legacy_add_not_atomic_witness :
    (Legacy.Add legacyEmpty ([some legacyGood, some legacyBad])).2
        = some Legacy.AddError.emptyName
    ∧ ∃ e, lookupA (Legacy.Add legacyEmpty
          ([some legacyGood, some legacyBad])).1.m ("get") = some e
        ∧ e.name = "get" := by
  have h := legacy_add_not_atomic legacyEmpty [legacyGood] (some legacyBad) []
    (by
      intro d hd
      rw [List.mem_singleton] at hd
      subst hd
      decide)
    (Or.inr ⟨legacyBad, rfl, rfl⟩)
  exact ⟨h.1, h.2 legacyGood (List.mem_singleton_self legacyGood)⟩

/-- C2: in every state reachable by SubscribeCmd, DelCon, DelConCmd
and UpdateConCmd from the fresh engine, the by-connection index holds
a pairing reference for (connection, command) exactly when the
by-command index holds the same reference for (command, connection);
equal references name the one shared action, so both indices carry
the identical pairing with the same data and handler. -/
theorem subscription_dual_index {C D : Type} [DecidableEq C] [Inhabited D]
    {s : Subscription C D} (h : Reachable s) (con : C) (cmd : String) :
    Subscription.subLookup s con cmd = Subscription.actLookup s cmd con :=
  (reachable_inv h).2.2.1 con cmd

/-- Witness for the C2 theorem at a one-subscription state. -/
theorem subscription_dual_index_witness :
    Subscription.subLookup stateOne 1 ("tick")
      = Subscription.actLookup stateOne ("tick") 1 :=
  subscription_dual_index (Reachable.subscribe Reachable.init) 1 ("tick")

/-- C3 amended: ExecCmd and ExecConCmd hold the shared read lock for
their whole duration; in the lock-event trace the acquisition comes
first, the release is the final event, and everything in between is a
handler invocation, so the shared lock is released only after every
handler invocation finishes, and a stalled handler keeps the read
lock held against exclusive subscription mutations. -/
theorem lock_held_across_handlers {C D : Type} [DecidableEq C]
    (s : Subscription C D) (con : C) (cmd : String) :
    (∃ mid, execCmdTrace s cmd = Event.rlock :: (mid ++ [Event.runlock])
      ∧ ∀ e ∈ mid, ∃ c, e = Event.invoke c)
    ∧ (∃ mid, execConCmdTrace s con cmd
        = Event.rlock :: (mid ++ [Event.runlock])
      ∧ ∀ e ∈ mid, ∃ c, e = Event.invoke c) := by
  constructor
  · refine ⟨((lookupA s.ActionsMap cmd).getD []).map
      (fun p : C × Nat => Event.invoke p.1), rfl, ?_⟩
    intro e he
    obtain ⟨p, _, hp⟩ := List.mem_map.mp he
    exact ⟨p.1, hp.symm⟩
  · refine ⟨(match Subscription.subLookup s con cmd with
      | some _ => [Event.invoke con]
      | none => []), rfl, ?_⟩
    intro e he
    cases hm : Subscription.subLookup s con cmd with
    | some r =>
      rw [hm] at he
      simp at he
      exact ⟨con, he⟩
    | none =>
      rw [hm] at he
      simp at he

/-- Witness for the amended C3 theorem at a one-subscriber state. -/
theorem lock_held_across_handlers_witness :
    (∃ mid, execCmdTrace stateOne ("tick")
        = Event.rlock :: (mid ++ [Event.runlock])
      ∧ ∀ e ∈ mid, ∃ c, e = Event.invoke c)
    ∧ (∃ mid, execConCmdTrace stateOne 1 ("tick")
        = Event.rlock :: (mid ++ [Event.runlock])
      ∧ ∀ e ∈ mid, ∃ c, e = Event.invoke c) :=
  lock_held_across_handlers stateOne 1 ("tick")

/-- C3 counterexample: at the concrete one-subscriber state the
ExecCmd trace is acquire, invoke, release; the release does not
precede the handler invocation, refuting the claim that the shared
lock is released after the snapshot and before any handler runs. -/
theorem execCmd_unlock_not_before_invoke :
    execCmdTrace stateOne ("tick")
        = [Event.rlock, Event.invoke 1, Event.runlock]
      ∧ ¬((execCmdTrace stateOne ("tick")).indexOf (Event.runlock)
            < (execCmdTrace stateOne ("tick")).indexOf (Event.invoke 1)) := by
  constructor
  · decide
  · decide

/-- C4: in any reachable state, for each connection subscribed to a
command, running the broadcast sends exactly one envelope to that
connection, and its fields, including the err text, are computed from
the handler run of that connection alone; failures of other
subscribers cannot change it, and ExecCmd returns no error to its caller (its Go
return type is empty, so the send list is its entire behaviour). -/
theorem execCmd_one_envelope_each {C D : Type} [DecidableEq C] [Inhabited D]
    {s : Subscription C D} (h : Reachable s) (cmd : String) (con : C) (r : Nat)
    (hsub : Subscription.actLookup s cmd con = some r) :
    (Subscription.ExecCmd s cmd).filter (fun p => decide (p.1 = con)) =
      [(con, Subscription.mkEnvelope cmd (Subscription.runAction (s.heap r)))] := by
  obtain ⟨_, ih2, _, _, _⟩ := reachable_inv h
  cases hb : lookupA s.ActionsMap cmd with
  | none =>
    unfold Subscription.actLookup at hsub
    rw [hb] at hsub
    simp [lookupA] at hsub
  | some b =>
    have hbl : lookupA b con = some r := by
      unfold Subscription.actLookup at hsub
      rw [hb, Option.getD_some] at hsub
      exact hsub
    obtain ⟨hbn, _⟩ := ih2 cmd b hb
    unfold Subscription.ExecCmd
    rw [hb, Option.getD_some, List.filter_map]
    have hcomp : ((fun p : C × TeogwData => decide (p.1 = con)) ∘
        (fun p : C × Nat =>
          (p.1, Subscription.mkEnvelope cmd (Subscription.runAction (s.heap p.2)))))
        = fun p : C × Nat => decide (p.1 = con) := rfl
    rw [hcomp, filter_eq_singleton_of_lookupA b con r hbn hbl]
    rfl

/-- Witness for the C4 theorem: two subscribers of tick, one handler
failing; the failing subscriber receives the envelope carrying its
own error text, the other receives its data envelope untouched. -/
theorem execCmd_one_envelope_each_witness :
    (Subscription.ExecCmd stateTwo ("tick")).filter
        (fun p => decide (p.1 = 1)) =
      [(1, ⟨0, "", "tick", [5], ""⟩)]
    ∧ (Subscription.ExecCmd stateTwo ("tick")).filter
        (fun p => decide (p.1 = 2)) =
      [(2, ⟨0, "", "tick", [], "boom"⟩)] :=
  ⟨(@execCmd_one_envelope_each Nat Nat _ _ stateTwo
      (Reachable.subscribe (Reachable.subscribe Reachable.init))
      ("tick") 1 0 rfl).trans rfl,
   (@execCmd_one_envelope_each Nat Nat _ _ stateTwo
      (Reachable.subscribe (Reachable.subscribe Reachable.init))
      ("tick") 2 1 rfl).trans rfl⟩

/-- C7: in a reachable state whose bucket for a command consists of
pairings of one connection only, removing that connection by
DelConCmd or by DelCon deletes the command key from the by-command
index outright: the emptied bucket is pruned, never left behind. -/
theorem subscription_gc_bucket {C D : Type} [DecidableEq C] [Inhabited D]
    {s : Subscription C D} (h : Reachable s) (con : C) (cmd : String)
    (b : List (C × Nat)) (hb : lookupA s.ActionsMap cmd = some b)
    (hall : ∀ p ∈ b, p.1 = con) :
    lookupA (Subscription.DelConCmd s con cmd).ActionsMap cmd = none
      ∧ lookupA (Subscription.DelCon s con).ActionsMap cmd = none := by
  obtain ⟨ih1, ih2, _, _, _⟩ := reachable_inv h
  obtain ⟨_, hbne⟩ := ih2 cmd b hb
  have hsome : (lookupA b con).isSome = true :=
    lookupA_isSome_of_all_keys b con hbne hall
  have herase : eraseA b con = [] := (eraseA_eq_nil_iff b con).mpr hall
  constructor
  · show lookupA
      (if (lookupA ((lookupA s.ActionsMap cmd).getD []) con).isSome then
        if eraseA ((lookupA s.ActionsMap cmd).getD []) con = [] then
          eraseA s.ActionsMap cmd
        else
          setA s.ActionsMap cmd
            (eraseA ((lookupA s.ActionsMap cmd).getD []) con)
      else s.ActionsMap) cmd = none
    rw [hb]
    simp only [Option.getD_some]
    rw [if_pos hsome, if_pos herase, lookupA_eraseA, if_pos rfl]
  · rw [Subscription.DelCon_ActionsMap,
      Subscription.lookupA_delConBuckets _ con cmd ih1, hb, Option.some_bind,
      if_pos hsome, if_pos herase]

/-- Witness for the C7 theorem: the only subscriber of tick leaves,
by either removal operation, and the tick bucket disappears. -/
theorem subscription_gc_bucket_witness :
    lookupA (Subscription.DelConCmd stateOne 1 ("tick")).ActionsMap ("tick")
        = none
    ∧ lookupA (Subscription.DelCon stateOne 1).ActionsMap ("tick") = none :=
  subscription_gc_bucket (Reachable.subscribe Reachable.init) 1 ("tick")
    [(1, 0)] rfl (by decide)

/-- C8: in a reachable state, UpdateConCmd leaves both indices and
the allocation counter untouched; when the pairing exists it rewrites
only the Data field of the action of that pairing, keeping its
Command and Handler and the actions of all other pairings unchanged; when the pairing
does not exist the state is returned unchanged and no error is
signalled (the operation returns nothing). -/
theorem updateConCmd_frame {C D : Type} [DecidableEq C] [Inhabited D]
    {s : Subscription C D} (h : Reachable s) (con : C) (cmd : String) (d : D) :
    (Subscription.UpdateConCmd s con cmd d).SubscribersMap = s.SubscribersMap
    ∧ (Subscription.UpdateConCmd s con cmd d).ActionsMap = s.ActionsMap
    ∧ (Subscription.UpdateConCmd s con cmd d).nextRef = s.nextRef
    ∧ (∀ r, Subscription.subLookup s con cmd = some r →
        ((Subscription.UpdateConCmd s con cmd d).heap r).Data = d
        ∧ ((Subscription.UpdateConCmd s con cmd d).heap r).Command
            = (s.heap r).Command
        ∧ ((Subscription.UpdateConCmd s con cmd d).heap r).Handler
            = (s.heap r).Handler
        ∧ ∀ c2 k2 r2, Subscription.subLookup s c2 k2 = some r2 →
            ¬(c2 = con ∧ k2 = cmd) →
            (Subscription.UpdateConCmd s con cmd d).heap r2 = s.heap r2)
    ∧ (Subscription.subLookup s con cmd = none →
        Subscription.UpdateConCmd s con cmd d = s) := by
  obtain ⟨_, _, _, _, ih5⟩ := reachable_inv h
  refine ⟨(Subscription.UpdateConCmd_maps s con cmd d).1,
    (Subscription.UpdateConCmd_maps s con cmd d).2.1,
    (Subscription.UpdateConCmd_maps s con cmd d).2.2, ?_, ?_⟩
  · intro r hr
    have hr2 : lookupA ((lookupA s.SubscribersMap con).getD []) cmd = some r := hr
    have hdef : Subscription.UpdateConCmd s con cmd d =
        { s with heap := fun n =>
            if n = r then { s.heap r with Data := d } else s.heap n } := by
      unfold Subscription.UpdateConCmd
      rw [hr2]
    refine ⟨?_, ?_, ?_, ?_⟩
    · rw [hdef]
      simp
    · rw [hdef]
      simp
    · rw [hdef]
      simp
    · intro c2 k2 r2 hr2b hne
      have hrr : ¬(r2 = r) := by
        intro he
        subst he
        exact hne (ih5 c2 k2 con cmd r2 hr2b hr)
      rw [hdef]
      simp [hrr]
  · intro hr
    unfold Subscription.UpdateConCmd
    rw [show lookupA ((lookupA s.SubscribersMap con).getD []) cmd = none from hr]

/-- Witness for the C8 theorem at a two-pairing state: updating the
tick pairing of connection 1 changes only the data of that action. -/
theorem updateConCmd_frame_witness :
    ((Subscription.UpdateConCmd stateUpd 1 ("tick") 9).heap 0).Data = 9
    ∧ ((Subscription.UpdateConCmd stateUpd 1 ("tick") 9).heap 1).Data
        = (stateUpd.heap 1).Data := by
  have h := @updateConCmd_frame Nat Nat _ _ stateUpd
    (Reachable.subscribe (Reachable.subscribe Reachable.init)) 1 ("tick")
    (9 : Nat)
  obtain ⟨_, _, _, hsome, _⟩ := h
  obtain ⟨hdata, _, _, hframe⟩ := hsome 0 rfl
  refine ⟨hdata, ?_⟩
  rw [hframe 1 ("tock") 1 rfl (by decide)]

end CommandRepo
